import Mathlib

set_option maxRecDepth 10000

/-!
Verification development for the curve-generation and index-mapping core of
uncurl (src/uncurl.c): the grammar-driven curve engine (struct
lindenmayer_system and friends), the grid-dimension computation, and the
reverse-index builder in main.  The Hilbert Direct Mapper described in the
specification has no counterpart in src/, so it is modelled from the
specification text; everything else is translated from the C source.
-/

/-- State of the grammar curve engine, mirroring struct lindenmayer_system in
uncurl.c.  The rules array becomes a list of op strings (a rule's length field
is its list length); the stack becomes a list of (rule_index, pc) pairs whose
head is the top of the stack (the entry at index stack_height - 1 in C);
n_rules is the length of the rules list.  Coordinates are C ints, modelled as
unbounded integers; direction is kept as a natural number (it only ever holds
0..3). -/
structure lindenmayer_system where
  rules : List (List Char)
  depth : Nat
  stack : List (Nat × Nat)
  state : Nat
  x : Int
  y : Int
  direction : Nat

/-- Mirrors lindenmayer_system_init: memset to zero, then copy the rule
strings and the depth. -/
def lindenmayer_system_init (rules : List String) (depth : Nat) : lindenmayer_system :=
  { rules := rules.map String.toList, depth := depth, stack := [], state := 0,
    x := 0, y := 0, direction := 0 }

/-- The canonical two-rule grammar passed to lindenmayer_system_init in main
for CURVE_TYPE_hilbert. -/
def canonicalRules : List String := ["+1^-0^0-^1+", "-0^+1^1+^0-"]

/-- Outcome of one iteration of the loop body of
lindenmayer_system_next_coord: an emission (the function returns 1 after
writing out_x/out_y), a continuation of the inner loop, or a halt (the
function returns 0). -/
inductive StepRes where
  | emit (x y : Int)
  | cont
  | halt
deriving DecidableEq

/-- One iteration of the control flow of lindenmayer_system_next_coord: the
two state checks at the top of the function, then one pass through the body
of the for loop (pop when pc is past the rule length, otherwise dispatch on
the op character, then push or advance the program counter).  The direction
dispatch for the move op mirrors the C switch, whose default branch is
assert(!"bad state"); it is modelled as not moving. -/
def lstep (l : lindenmayer_system) : StepRes × lindenmayer_system :=
  if l.state ≥ 2 then (StepRes.halt, l)
  else if l.state = 0 then
    (StepRes.emit 0 0, { l with stack := [(0, 0)], state := 1 })
  else
    match l.stack with
    | [] => (StepRes.halt, { l with state := 2 })
    | (ri, pc) :: rest =>
      let rule := l.rules.getD ri []
      if rule.length ≤ pc then
        match rest with
        | [] => (StepRes.cont, { l with stack := [] })
        | (ri2, pc2) :: rest2 => (StepRes.cont, { l with stack := (ri2, pc2 + 1) :: rest2 })
      else
        let op := rule.getD pc ' '
        if op = '^' then
          let q : Int × Int :=
            match l.direction with
            | 0 => (l.x + 1, l.y)
            | 1 => (l.x, l.y + 1)
            | 2 => (l.x - 1, l.y)
            | 3 => (l.x, l.y - 1)
            | _ => (l.x, l.y)
          (StepRes.emit q.1 q.2, { l with x := q.1, y := q.2, stack := (ri, pc + 1) :: rest })
        else if op = '+' then
          (StepRes.cont, { l with direction := (l.direction + 1) &&& 3, stack := (ri, pc + 1) :: rest })
        else if op = '-' then
          (StepRes.cont, { l with direction := (l.direction + 3) &&& 3, stack := (ri, pc + 1) :: rest })
        else
          let new_rule_index := op.toNat - 48
          if l.stack.length < l.depth then
            (StepRes.cont, { l with stack := (new_rule_index, 0) :: (ri, pc) :: rest })
          else
            (StepRes.cont, { l with stack := (ri, pc + 1) :: rest })

/-- The production call lindenmayer_system_next_coord: iterate lstep until it
emits a coordinate (return 1 with the coordinate) or halts (return 0).  The
fuel argument bounds the inner for loop, which the C code leaves unbounded;
every concrete use in this development supplies enough fuel. -/
def lindenmayer_system_next_coord :
    Nat → lindenmayer_system → Option (Int × Int) × lindenmayer_system
  | 0, l => (none, l)
  | fuel + 1, l =>
    match lstep l with
    | (StepRes.emit x y, l2) => (some (x, y), l2)
    | (StepRes.halt, l2) => (none, l2)
    | (StepRes.cont, l2) => lindenmayer_system_next_coord fuel l2

/-- Drive lstep for a given number of iterations, accumulating the emitted
coordinates in reverse order (newest first).  This is the loop in main that
repeatedly calls lindenmayer_system_next_coord, flattened to one lstep per
fuel unit; a halted engine is left to spin in place, which changes nothing. -/
def runStepsAux :
    Nat → lindenmayer_system → List (Int × Int) → List (Int × Int) × lindenmayer_system
  | 0, l, acc => (acc, l)
  | fuel + 1, l, acc =>
    match lstep l with
    | (StepRes.emit x y, l2) => runStepsAux fuel l2 ((x, y) :: acc)
    | (StepRes.halt, l2) => runStepsAux fuel l2 acc
    | (StepRes.cont, l2) => runStepsAux fuel l2 acc

/-- Enough fuel to drive the canonical engine at depth w to exhaustion (the
exact number of iterations is 4 ^ (w + 1) - 2 for w ≥ 1, and 14 for w = 0). -/
def curveFuel (w : Nat) : Nat := 4 ^ (w + 1) + 16

/-- The complete coordinate sequence emitted by the canonical engine at depth
w, in emission order. -/
def emissionList (w : Nat) : List (Int × Int) :=
  ((runStepsAux (curveFuel w) (lindenmayer_system_init canonicalRules w) []).1).reverse

/-- The loop in main computing width_log2: starting from 0, increment while
(1 << (2 * width_log2)) < input_length.  The fuel argument bounds the while
loop; fuel N always suffices since 4 ^ N ≥ N. -/
def widthLog2Loop (N : Nat) : Nat → Nat → Nat
  | 0, w => w
  | fuel + 1, w => if 1 <<< (2 * w) < N then widthLog2Loop N fuel (w + 1) else w

/-- width_log2 as computed in main from the input length. -/
def computeWidthLog2 (N : Nat) : Nat := widthLog2Loop N N 0

/-- The reverse-index builder loop in main: for each emitted coordinate, in
order, assert 0 <= px < width and 0 <= py < width (a failed assert aborts the
program, modelled as none), then store the running point_index at cell
(py << width_log2) + px.  The reverse array is a list of cell_count entries
initialised to the sentinel -1 by memset. -/
def buildReverseAux (w : Nat) : Nat → List (Int × Int) → List Int → Option (List Int)
  | _, [], rev => some rev
  | i, (px, py) :: rest, rev =>
      if 0 ≤ px ∧ px < 2 ^ w ∧ 0 ≤ py ∧ py < 2 ^ w then
        buildReverseAux w (i + 1) rest (rev.set (py * 2 ^ w + px).toNat (Int.ofNat i))
      else
        none

/-- The reverse index after main's generation loop has driven the engine to
exhaustion: cell_count sentinel entries, then one write per emission; none if
an emission falls outside the grid, aborting the builder on its assert. -/
def buildReverse (N : Nat) : Option (List Int) :=
  let w := computeWidthLog2 N
  buildReverseAux w 0 (emissionList w) (List.replicate (4 ^ w) (-1))

/-- The cell index computed in main for a coordinate: (y << width_log2) + x,
as a Nat index into the reverse array. -/
def cellIdx (w : Nat) (p : Int × Int) : Nat := (p.2 * 2 ^ w + p.1).toNat

/-- Modelled from the spec: the Hilbert Direct Mapper of spec section 4.2 has
no counterpart in src/uncurl.c, so it is modelled from the specification
text: iterate the scale s from 1 up to width doubling each time; at each step
extract two bits rx, ry from the remaining index t (rx from bit 1 of t, ry
from bit 0 of t xor rx); when ry = 0 rotate (swap x and y, and if rx = 1 also
reflect both about s - 1); accumulate x += s * rx, y += s * ry; shift t right
by 2.  The first argument counts the remaining iterations (width_log2 in
total). -/
def hilbert_d2xy_aux : Nat → Nat → Nat → Nat × Nat → Nat × Nat
  | 0, _, _, xy => xy
  | k + 1, s, t, xy =>
    let rx := (t / 2) % 2
    let ry := (t ^^^ rx) % 2
    let xy2 :=
      if ry = 0 then
        if rx = 1 then (s - 1 - xy.2, s - 1 - xy.1) else (xy.2, xy.1)
      else xy
    hilbert_d2xy_aux k (s * 2) (t / 4) (xy2.1 + s * rx, xy2.2 + s * ry)

/-- Modelled from the spec: the Hilbert Direct Mapper, index to coordinates,
for a grid of side 2 ^ width_log2. -/
def hilbert_d2xy (width_log2 i : Nat) : Nat × Nat :=
  hilbert_d2xy_aux width_log2 1 i (0, 0)

/-- The mapper's coordinate as a pair of integers, for comparison with the
engine's output. -/
def hilbertCoord (w i : Nat) : Int × Int :=
  (((hilbert_d2xy w i).1 : Int), ((hilbert_d2xy w i).2 : Int))

/-- The mapper's full output sequence for i = 0 .. width^2 - 1. -/
def hilbertList (w : Nat) : List (Int × Int) :=
  (List.range (4 ^ w)).map (hilbertCoord w)

/-- States of the engine reachable from an initialised engine by repeatedly
running iterations of lindenmayer_system_next_coord. -/
inductive Reach (rules : List String) (depth : Nat) : lindenmayer_system → Prop where
  | init : Reach rules depth (lindenmayer_system_init rules depth)
  | step {l : lindenmayer_system} : Reach rules depth l → Reach rules depth (lstep l).2

/-- Nat-level output sequence of the mapper, for arithmetic reasoning. -/
def hilbertListN (w : Nat) : List (Nat × Nat) :=
  (List.range (4 ^ w)).map (hilbert_d2xy w)

/-- One iteration of the mapper loop in isolation: scale s, remaining index
t, transforming an accumulated coordinate pair. -/
def hilbStep (s t : Nat) (xy : Nat × Nat) : Nat × Nat :=
  let rx := (t / 2) % 2
  let ry := (t ^^^ rx) % 2
  let xy2 :=
    if ry = 0 then
      if rx = 1 then (s - 1 - xy.2, s - 1 - xy.1) else (xy.2, xy.1)
    else xy
  (xy2.1 + s * rx, xy2.2 + s * ry)

/-- Coordinate pair cast from Nat to Int. -/
def iPair (p : Nat × Nat) : Int × Int := ((p.1 : Int), (p.2 : Int))

/-- The four quadrant transforms of the mapper's last iteration, on integer
coordinates, at scale s. -/
def quadMap : Nat → Int → (Int × Int) → (Int × Int)
  | 0, _, c => (c.2, c.1)
  | 1, s, c => (c.1, c.2 + s)
  | 2, s, c => (c.1 + s, c.2 + s)
  | _, s, c => (2 * s - 1 - c.2, s - 1 - c.1)

/-- Grid adjacency: Manhattan distance exactly one. -/
def adjacentCell (a b : Int × Int) : Prop :=
  (a.1 - b.1).natAbs + (a.2 - b.2).natAbs = 1

/-- The unit step vector for each direction value, mirroring the move-emit
switch in lindenmayer_system_next_coord (the unreachable default moves by
zero, as the model of assert(!"bad state")). -/
def dirVec : Nat → Int × Int
  | 0 => (1, 0)
  | 1 => (0, 1)
  | 2 => (-1, 0)
  | 3 => (0, -1)
  | _ => (0, 0)

/-- Affine reindexing of a coordinate c into the frame anchored at p with
axis vectors u and v. -/
def affineMap (p u v c : Int × Int) : Int × Int :=
  (p.1 + c.1 * u.1 + c.2 * v.1, p.2 + c.1 * u.2 + c.2 * v.2)

/-- The turn increment of a rule's first op: rule 0 starts with + (turn by
1 mod 4), rule 1 with - (turn by 3 mod 4). -/
def ruleTurn (r : Nat) : Nat := if r = 0 then 1 else 3

/-- The canonical rule table as op lists, as stored by
lindenmayer_system_init. -/
def canonRuleList : List (List Char) := canonicalRules.map String.toList

/-- Popping the engine stack: drop the finished frame and advance the
program counter of the frame below it, if any. -/
def bumpStack : List (Nat × Nat) → List (Nat × Nat)
  | [] => []
  | (ri, pc) :: rest => (ri, pc + 1) :: rest

/-- Result of running part of the engine denotationally: the emitted
coordinates in order, the final position and direction, and the exact number
of lstep iterations the stack machine spends on it. -/
structure ExecRes where
  emits : List (Int × Int)
  pos : Int × Int
  dir : Nat
  steps : Nat

/-- Denotational interpreter for the canonical grammar: run the remaining
ops of a frame at recursion budget b (the frame may spawn children while
b > 0, each with budget one less), starting at a given position and
direction.  The steps count includes one iteration per executed op, the
iterations of the children, and the final pop of the frame itself. -/
def execOps : Nat → List Char → (Int × Int) → Nat → ExecRes
  | _, [], p, d => ⟨[], p, d, 1⟩
  | b, c :: rest, p, d =>
    if c = '^' then
      let p2 := (p.1 + (dirVec d).1, p.2 + (dirVec d).2)
      let r := execOps b rest p2 d
      ⟨p2 :: r.emits, r.pos, r.dir, r.steps + 1⟩
    else if c = '+' then
      let r := execOps b rest p ((d + 1) &&& 3)
      ⟨r.emits, r.pos, r.dir, r.steps + 1⟩
    else if c = '-' then
      let r := execOps b rest p ((d + 3) &&& 3)
      ⟨r.emits, r.pos, r.dir, r.steps + 1⟩
    else
      match b with
      | 0 =>
        let r := execOps 0 rest p d
        ⟨r.emits, r.pos, r.dir, r.steps + 1⟩
      | b' + 1 =>
        let h := execOps b' (canonRuleList.getD (c.toNat - 48) []) p d
        let r := execOps (b' + 1) rest h.pos h.dir
        ⟨h.emits ++ r.emits, r.pos, r.dir, h.steps + r.steps + 1⟩
termination_by b ops _ _ => (b, ops.length)

/-- Running one whole frame of rule r at budget b. -/
def execFrame (b r : Nat) (p : Int × Int) (d : Nat) : ExecRes :=
  execOps b (canonRuleList.getD r []) p d

theorem hilbert_d2xy_aux_succ (k s t : Nat) (xy : Nat × Nat) :
    hilbert_d2xy_aux (k + 1) s t xy =
      hilbert_d2xy_aux k (s * 2) (t / 4) (hilbStep s t xy) := rfl

/-- The mapper only reads the low 2k bits of the index. -/
theorem hilbert_d2xy_aux_mod (k : Nat) :
    ∀ s t xy, hilbert_d2xy_aux k s (t % 4 ^ k) xy = hilbert_d2xy_aux k s t xy := by
  induction k with
  | zero => intro s t xy; rfl
  | succ k ih =>
    intro s t xy
    have hdvd : (4 : Nat) ∣ 4 ^ (k + 1) := ⟨4 ^ k, by ring⟩
    have h4 : t % 4 ^ (k + 1) % 4 = t % 4 := Nat.mod_mod_of_dvd t hdvd
    have hrx : (t % 4 ^ (k + 1) / 2) % 2 = (t / 2) % 2 := by omega
    have hry : ∀ r : Nat, (t % 4 ^ (k + 1) ^^^ r) % 2 = (t ^^^ r) % 2 := by
      intro r
      rw [Nat.xor_mod_two_eq, Nat.xor_mod_two_eq]
      omega
    have hstep : hilbStep s (t % 4 ^ (k + 1)) xy = hilbStep s t xy := by
      simp only [hilbStep, hrx, hry]
    have hdiv : t % 4 ^ (k + 1) / 4 = t / 4 % 4 ^ k := by
      have := Nat.mod_mul_right_div_self t 4 (4 ^ k)
      rwa [show (4 : Nat) * 4 ^ k = 4 ^ (k + 1) by ring] at this
    rw [hilbert_d2xy_aux_succ, hilbert_d2xy_aux_succ, hstep, hdiv, ih]

/-- Peeling the last (highest-scale) iteration off the mapper loop. -/
theorem hilbert_d2xy_aux_peel (k : Nat) :
    ∀ s t xy, hilbert_d2xy_aux (k + 1) s t xy =
      hilbStep (s * 2 ^ k) (t / 4 ^ k) (hilbert_d2xy_aux k s t xy) := by
  induction k with
  | zero =>
    intro s t xy
    rw [hilbert_d2xy_aux_succ, pow_zero, pow_zero, mul_one, Nat.div_one]
    rfl
  | succ k ih =>
    intro s t xy
    rw [hilbert_d2xy_aux_succ, ih, hilbert_d2xy_aux_succ]
    rw [Nat.div_div_eq_div_mul, show (4 : Nat) * 4 ^ k = 4 ^ (k + 1) by ring,
      show s * 2 * 2 ^ k = s * 2 ^ (k + 1) by ring]

/-- The mapper on index q * 4^k + j is the k-bit mapper on j followed by the
quadrant transform for q. -/
theorem hilbert_d2xy_split (k q j : Nat) (hj : j < 4 ^ k) :
    hilbert_d2xy (k + 1) (q * 4 ^ k + j) =
      hilbStep (2 ^ k) q (hilbert_d2xy k j) := by
  unfold hilbert_d2xy
  rw [hilbert_d2xy_aux_peel, one_mul]
  have hdivq : (q * 4 ^ k + j) / 4 ^ k = q := by
    rw [mul_comm q (4 ^ k), Nat.mul_add_div (by positivity)]
    simp [Nat.div_eq_of_lt hj]
  have hmodq : (q * 4 ^ k + j) % 4 ^ k = j := by
    rw [mul_comm q (4 ^ k), Nat.mul_add_mod]
    exact Nat.mod_eq_of_lt hj
  rw [hdivq, ← hilbert_d2xy_aux_mod k 1 (q * 4 ^ k + j) (0, 0), hmodq]

theorem hilbStep_zero (s : Nat) (xy : Nat × Nat) : hilbStep s 0 xy = (xy.2, xy.1) := by
  simp [hilbStep]

theorem hilbStep_one (s : Nat) (xy : Nat × Nat) : hilbStep s 1 xy = (xy.1, xy.2 + s) := by
  simp [hilbStep]

theorem hilbStep_two (s : Nat) (xy : Nat × Nat) :
    hilbStep s 2 xy = (xy.1 + s, xy.2 + s) := by
  simp [hilbStep]

theorem hilbStep_three (s : Nat) (xy : Nat × Nat) :
    hilbStep s 3 xy = (s - 1 - xy.2 + s, s - 1 - xy.1) := by
  simp [hilbStep]

/-- Block decomposition of the mapper output: the sequence for k + 1 bits is
the four quadrant-transformed copies of the sequence for k bits. -/
theorem hilbertListN_succ (k : Nat) :
    hilbertListN (k + 1) =
      (hilbertListN k).map (hilbStep (2 ^ k) 0) ++
      ((hilbertListN k).map (hilbStep (2 ^ k) 1) ++
      ((hilbertListN k).map (hilbStep (2 ^ k) 2) ++
      (hilbertListN k).map (hilbStep (2 ^ k) 3))) := by
  have hblock : ∀ q : Nat, ((List.range (4 ^ k)).map (fun j => q * 4 ^ k + j)).map
      (hilbert_d2xy (k + 1)) = (hilbertListN k).map (hilbStep (2 ^ k) q) := by
    intro q
    rw [List.map_map, hilbertListN, List.map_map]
    apply List.map_congr_left
    intro j hj
    have hjlt : j < 4 ^ k := List.mem_range.mp hj
    simp [Function.comp, hilbert_d2xy_split k q j hjlt]
  have hr : List.range (4 ^ (k + 1)) =
      (List.range (4 ^ k)).map (fun j => 0 * 4 ^ k + j) ++
      ((List.range (4 ^ k)).map (fun j => 1 * 4 ^ k + j) ++
      ((List.range (4 ^ k)).map (fun j => 2 * 4 ^ k + j) ++
      (List.range (4 ^ k)).map (fun j => 3 * 4 ^ k + j))) := by
    rw [show 4 ^ (k + 1) = 4 ^ k + (4 ^ k + (4 ^ k + 4 ^ k)) by ring,
      List.range_add, List.range_add, List.range_add]
    simp only [List.map_append, List.map_map]
    congr 1
    · simp
    congr 1
    · apply List.map_congr_left
      intro a _
      omega
    congr 1
    · apply List.map_congr_left
      intro a _
      simp [Function.comp]
      omega
    · apply List.map_congr_left
      intro a _
      simp [Function.comp]
      omega
  conv_lhs => rw [hilbertListN]
  rw [hr, List.map_append, List.map_append, List.map_append,
    hblock 0, hblock 1, hblock 2, hblock 3]

/-- Every mapper output for k bits lies in the square of side 2^k. -/
theorem hilbertListN_bounds (k : Nat) :
    ∀ p ∈ hilbertListN k, p.1 < 2 ^ k ∧ p.2 < 2 ^ k := by
  induction k with
  | zero =>
    have h0 : hilbertListN 0 = [(0, 0)] := rfl
    intro p hp
    rw [h0, List.mem_singleton] at hp
    subst hp
    norm_num
  | succ k ih =>
    intro p hp
    rw [hilbertListN_succ] at hp
    have hs : (0 : Nat) < 2 ^ k := Nat.two_pow_pos k
    have hps : 2 ^ (k + 1) = 2 ^ k + 2 ^ k := by ring
    rcases List.mem_append.mp hp with h | h
    · obtain ⟨q, hq, rfl⟩ := List.mem_map.mp h
      have hb := ih q hq
      rw [hilbStep_zero]
      exact ⟨by omega, by omega⟩
    rcases List.mem_append.mp h with h2 | h2
    · obtain ⟨q, hq, rfl⟩ := List.mem_map.mp h2
      have hb := ih q hq
      rw [hilbStep_one]
      exact ⟨by omega, by omega⟩
    rcases List.mem_append.mp h2 with h3 | h3
    · obtain ⟨q, hq, rfl⟩ := List.mem_map.mp h3
      have hb := ih q hq
      rw [hilbStep_two]
      exact ⟨by omega, by omega⟩
    · obtain ⟨q, hq, rfl⟩ := List.mem_map.mp h3
      have hb := ih q hq
      rw [hilbStep_three]
      exact ⟨by omega, by omega⟩

theorem hilbertList_eq (w : Nat) : hilbertList w = (hilbertListN w).map iPair := by
  rw [hilbertList, hilbertListN, List.map_map]
  apply List.map_congr_left
  intro i _
  rfl

/-- Block decomposition of the mapper output on integer coordinates. -/
theorem hilbertList_succ (k : Nat) :
    hilbertList (k + 1) =
      (hilbertList k).map (quadMap 0 ((2 ^ k : Nat) : Int)) ++
      ((hilbertList k).map (quadMap 1 ((2 ^ k : Nat) : Int)) ++
      ((hilbertList k).map (quadMap 2 ((2 ^ k : Nat) : Int)) ++
       (hilbertList k).map (quadMap 3 ((2 ^ k : Nat) : Int)))) := by
  have hone : (1 : Nat) ≤ 2 ^ k := Nat.one_le_two_pow
  have hq : ∀ q : Nat, q < 4 →
      (hilbertListN k).map (iPair ∘ hilbStep (2 ^ k) q) =
      (hilbertListN k).map (quadMap q ((2 ^ k : Nat) : Int) ∘ iPair) := by
    intro q hqlt
    apply List.map_congr_left
    intro p hp
    have hb := hilbertListN_bounds k p hp
    interval_cases q
    · rw [Function.comp_apply, Function.comp_apply, hilbStep_zero]
      rfl
    · rw [Function.comp_apply, Function.comp_apply, hilbStep_one]
      simp only [iPair, quadMap, Prod.mk.injEq]
      constructor <;> push_cast <;> omega
    · rw [Function.comp_apply, Function.comp_apply, hilbStep_two]
      simp only [iPair, quadMap, Prod.mk.injEq]
      constructor <;> push_cast <;> omega
    · rw [Function.comp_apply, Function.comp_apply, hilbStep_three]
      simp only [iPair, quadMap, Prod.mk.injEq]
      constructor <;> omega
  rw [hilbertList_eq, hilbertListN_succ]
  simp only [List.map_append, List.map_map, hilbertList_eq]
  rw [hq 0 (by norm_num), hq 1 (by norm_num), hq 2 (by norm_num), hq 3 (by norm_num)]

theorem hilbertList_length (w : Nat) : (hilbertList w).length = 4 ^ w := by
  simp [hilbertList]

theorem hilbertList_ne_nil (w : Nat) : hilbertList w ≠ [] := by
  intro h
  have hl := hilbertList_length w
  rw [h] at hl
  have hpos : (0 : Nat) < 4 ^ w := by positivity
  simp at hl
  omega

theorem hilbertList_bounds (k : Nat) :
    ∀ p ∈ hilbertList k,
      0 ≤ p.1 ∧ p.1 < ((2 ^ k : Nat) : Int) ∧ 0 ≤ p.2 ∧ p.2 < ((2 ^ k : Nat) : Int) := by
  intro p hp
  rw [hilbertList_eq] at hp
  obtain ⟨q, hq, rfl⟩ := List.mem_map.mp hp
  have hb := hilbertListN_bounds k q hq
  simp only [iPair]
  constructor
  · positivity
  refine ⟨?_, ?_, ?_⟩
  · exact_mod_cast hb.1
  · positivity
  · exact_mod_cast hb.2

theorem hilbertList_zero : hilbertList 0 = [(0, 0)] := rfl

theorem hilbertList_map_ne_nil (k : Nat) (f : Int × Int → Int × Int) :
    (hilbertList k).map f ≠ [] :=
  fun hc => hilbertList_ne_nil k (List.map_eq_nil.mp hc)

theorem hilbertList_head (k : Nat) : (hilbertList k).head? = some (0, 0) := by
  induction k with
  | zero => rfl
  | succ k ih =>
    rw [hilbertList_succ,
      List.head?_append_of_ne_nil _ (hilbertList_map_ne_nil k _),
      List.head?_map, ih]
    rfl

theorem hilbertList_last (k : Nat) :
    (hilbertList k).getLast? = some (((2 ^ k : Nat) : Int) - 1, 0) := by
  induction k with
  | zero =>
    rw [hilbertList_zero]
    norm_num
  | succ k ih =>
    rw [hilbertList_succ, List.getLast?_append, List.getLast?_append,
      List.getLast?_append, List.getLast?_map, ih]
    simp only [Option.map_some', Option.or_some]
    simp only [quadMap, Option.some.injEq, Prod.mk.injEq]
    constructor
    · push_cast
      ring
    · ring

theorem quadMap_inj (q : Nat) (s : Int) : Function.Injective (quadMap q s) := by
  intro a b hab
  match q with
  | 0 =>
    simp only [quadMap, Prod.mk.injEq] at hab
    exact Prod.ext hab.2 hab.1
  | 1 =>
    simp only [quadMap, Prod.mk.injEq] at hab
    exact Prod.ext hab.1 (by omega)
  | 2 =>
    simp only [quadMap, Prod.mk.injEq] at hab
    exact Prod.ext (by omega) (by omega)
  | (n + 3) =>
    simp only [quadMap, Prod.mk.injEq] at hab
    exact Prod.ext (by omega) (by omega)

theorem hilbertList_nodup (k : Nat) : (hilbertList k).Nodup := by
  induction k with
  | zero => simp [hilbertList_zero]
  | succ k ih =>
    have hs1 : (1 : Int) ≤ ((2 ^ k : Nat) : Int) := by exact_mod_cast Nat.one_le_two_pow
    have hbound := hilbertList_bounds k
    have hm0 : ∀ p ∈ (hilbertList k).map (quadMap 0 ((2 ^ k : Nat) : Int)),
        p.1 < ((2 ^ k : Nat) : Int) ∧ p.2 < ((2 ^ k : Nat) : Int) := by
      intro p hp
      obtain ⟨c, hc, rfl⟩ := List.mem_map.mp hp
      have := hbound c hc
      simp only [quadMap]
      omega
    have hm1 : ∀ p ∈ (hilbertList k).map (quadMap 1 ((2 ^ k : Nat) : Int)),
        p.1 < ((2 ^ k : Nat) : Int) ∧ ((2 ^ k : Nat) : Int) ≤ p.2 := by
      intro p hp
      obtain ⟨c, hc, rfl⟩ := List.mem_map.mp hp
      have := hbound c hc
      simp only [quadMap]
      omega
    have hm2 : ∀ p ∈ (hilbertList k).map (quadMap 2 ((2 ^ k : Nat) : Int)),
        ((2 ^ k : Nat) : Int) ≤ p.1 ∧ ((2 ^ k : Nat) : Int) ≤ p.2 := by
      intro p hp
      obtain ⟨c, hc, rfl⟩ := List.mem_map.mp hp
      have := hbound c hc
      simp only [quadMap]
      omega
    have hm3 : ∀ p ∈ (hilbertList k).map (quadMap 3 ((2 ^ k : Nat) : Int)),
        ((2 ^ k : Nat) : Int) ≤ p.1 ∧ p.2 < ((2 ^ k : Nat) : Int) := by
      intro p hp
      obtain ⟨c, hc, rfl⟩ := List.mem_map.mp hp
      have := hbound c hc
      simp only [quadMap]
      omega
    rw [hilbertList_succ, List.nodup_append]
    refine ⟨ih.map (quadMap_inj 0 _), ?_, ?_⟩
    · rw [List.nodup_append]
      refine ⟨ih.map (quadMap_inj 1 _), ?_, ?_⟩
      · rw [List.nodup_append]
        refine ⟨ih.map (quadMap_inj 2 _), ih.map (quadMap_inj 3 _), ?_⟩
        · rw [List.disjoint_left]
          intro a ha hb
          have := hm2 a ha
          have := hm3 a hb
          omega
      · rw [List.disjoint_left]
        intro a ha hb
        have h1 := hm1 a ha
        rcases List.mem_append.mp hb with h | h
        · have := hm2 a h
          omega
        · have := hm3 a h
          omega
    · rw [List.disjoint_left]
      intro a ha hb
      have h0 := hm0 a ha
      rcases List.mem_append.mp hb with h | h
      · have := hm1 a h
        omega
      rcases List.mem_append.mp h with h2 | h2
      · have := hm2 a h2
        omega
      · have := hm3 a h2
        omega

theorem hilbertList_coverage (k : Nat) :
    ∀ x y : Int, 0 ≤ x → x < ((2 ^ k : Nat) : Int) → 0 ≤ y → y < ((2 ^ k : Nat) : Int) →
      (x, y) ∈ hilbertList k := by
  induction k with
  | zero =>
    intro x y h1 h2 h3 h4
    norm_num at h2 h4
    rw [hilbertList_zero]
    have hx : x = 0 := by omega
    have hy : y = 0 := by omega
    simp [hx, hy]
  | succ k ih =>
    intro x y hx0 hx hy0 hy
    have hs1 : (1 : Int) ≤ ((2 ^ k : Nat) : Int) := by exact_mod_cast Nat.one_le_two_pow
    have hps : ((2 ^ (k + 1) : Nat) : Int) = 2 * ((2 ^ k : Nat) : Int) := by
      push_cast
      ring
    rw [hps] at hx hy
    rw [hilbertList_succ]
    by_cases hcx : x < ((2 ^ k : Nat) : Int) <;> by_cases hcy : y < ((2 ^ k : Nat) : Int)
    · apply List.mem_append.mpr
      left
      apply List.mem_map.mpr
      exact ⟨(y, x), ih y x hy0 hcy hx0 hcx, rfl⟩
    · apply List.mem_append.mpr
      right
      apply List.mem_append.mpr
      left
      apply List.mem_map.mpr
      refine ⟨(x, y - ((2 ^ k : Nat) : Int)), ih _ _ hx0 hcx (by omega) (by omega), ?_⟩
      simp only [quadMap, Prod.mk.injEq, true_and, and_true]
      omega
    · apply List.mem_append.mpr
      right
      apply List.mem_append.mpr
      right
      apply List.mem_append.mpr
      right
      apply List.mem_map.mpr
      refine ⟨(((2 ^ k : Nat) : Int) - 1 - y, 2 * ((2 ^ k : Nat) : Int) - 1 - x),
        ih _ _ (by omega) (by omega) (by omega) (by omega), ?_⟩
      simp only [quadMap, Prod.mk.injEq, true_and, and_true]
      omega
    · apply List.mem_append.mpr
      right
      apply List.mem_append.mpr
      right
      apply List.mem_append.mpr
      left
      apply List.mem_map.mpr
      refine ⟨(x - ((2 ^ k : Nat) : Int), y - ((2 ^ k : Nat) : Int)),
        ih _ _ (by omega) (by omega) (by omega) (by omega), ?_⟩
      simp only [quadMap, Prod.mk.injEq, true_and, and_true]
      omega

theorem quadMap_adjacent (q : Nat) (s : Int) (a b : Int × Int) (h : adjacentCell a b) :
    adjacentCell (quadMap q s a) (quadMap q s b) := by
  match q with
  | 0 =>
    simp only [quadMap, adjacentCell] at h ⊢
    omega
  | 1 =>
    simp only [quadMap, adjacentCell] at h ⊢
    omega
  | 2 =>
    simp only [quadMap, adjacentCell] at h ⊢
    omega
  | (n + 3) =>
    simp only [quadMap, adjacentCell] at h ⊢
    omega

theorem hilbertList_chain (k : Nat) : List.Chain' adjacentCell (hilbertList k) := by
  induction k with
  | zero => rw [hilbertList_zero]; exact List.chain'_singleton _
  | succ k ih =>
    have hs1 : (1 : Int) ≤ ((2 ^ k : Nat) : Int) := by exact_mod_cast Nat.one_le_two_pow
    have hblock : ∀ q : Nat, List.Chain' adjacentCell
        ((hilbertList k).map (quadMap q ((2 ^ k : Nat) : Int))) := by
      intro q
      rw [List.chain'_map]
      exact List.Chain'.imp (fun a b hab => quadMap_adjacent q _ a b hab) ih
    have hlast : ∀ q : Nat, ((hilbertList k).map (quadMap q ((2 ^ k : Nat) : Int))).getLast? =
        some (quadMap q ((2 ^ k : Nat) : Int) (((2 ^ k : Nat) : Int) - 1, 0)) := by
      intro q
      rw [List.getLast?_map, hilbertList_last]
      rfl
    have hhead : ∀ q : Nat, ((hilbertList k).map (quadMap q ((2 ^ k : Nat) : Int))).head? =
        some (quadMap q ((2 ^ k : Nat) : Int) (0, 0)) := by
      intro q
      rw [List.head?_map, hilbertList_head]
      rfl
    rw [hilbertList_succ]
    rw [List.chain'_append]
    refine ⟨hblock 0, ?_, ?_⟩
    · rw [List.chain'_append]
      refine ⟨hblock 1, ?_, ?_⟩
      · rw [List.chain'_append]
        refine ⟨hblock 2, hblock 3, ?_⟩
        · intro a ha b hb
          rw [hlast 2] at ha
          rw [hhead 3] at hb
          simp only [Option.mem_def, Option.some.injEq] at ha hb
          subst ha
          subst hb
          simp only [quadMap, adjacentCell]
          omega
      · intro a ha b hb
        rw [hlast 1] at ha
        rw [List.head?_append_of_ne_nil _ (hilbertList_map_ne_nil k _), hhead 2] at hb
        simp only [Option.mem_def, Option.some.injEq] at ha hb
        subst ha
        subst hb
        simp only [quadMap, adjacentCell]
        omega
    · intro a ha b hb
      rw [hlast 0] at ha
      rw [List.head?_append_of_ne_nil _ (hilbertList_map_ne_nil k _), hhead 1] at hb
      simp only [Option.mem_def, Option.some.injEq] at ha hb
      subst ha
      subst hb
      simp only [quadMap, adjacentCell]
      omega

theorem canonRule0 : canonRuleList.getD 0 [] =
    ['+', '1', '^', '-', '0', '^', '0', '-', '^', '1', '+'] := rfl

theorem canonRule1 : canonRuleList.getD 1 [] =
    ['-', '0', '^', '+', '1', '^', '1', '+', '^', '0', '-'] := rfl

theorem land3_lt (n : Nat) : n &&& 3 < 4 :=
  Nat.lt_succ_of_le Nat.and_le_right

theorem execOps_nil (b : Nat) (p : Int × Int) (d : Nat) :
    execOps b [] p d = ⟨[], p, d, 1⟩ := by
  simp [execOps]

theorem execOps_move (b : Nat) (rest : List Char) (p : Int × Int) (d : Nat) :
    execOps b ('^' :: rest) p d =
      ⟨(p.1 + (dirVec d).1, p.2 + (dirVec d).2) ::
          (execOps b rest (p.1 + (dirVec d).1, p.2 + (dirVec d).2) d).emits,
        (execOps b rest (p.1 + (dirVec d).1, p.2 + (dirVec d).2) d).pos,
        (execOps b rest (p.1 + (dirVec d).1, p.2 + (dirVec d).2) d).dir,
        (execOps b rest (p.1 + (dirVec d).1, p.2 + (dirVec d).2) d).steps + 1⟩ := by
  rw [execOps.eq_def]
  simp

theorem execOps_plus (b : Nat) (rest : List Char) (p : Int × Int) (d : Nat) :
    execOps b ('+' :: rest) p d =
      ⟨(execOps b rest p ((d + 1) &&& 3)).emits, (execOps b rest p ((d + 1) &&& 3)).pos,
        (execOps b rest p ((d + 1) &&& 3)).dir, (execOps b rest p ((d + 1) &&& 3)).steps + 1⟩ := by
  rw [execOps.eq_def]
  simp

theorem execOps_minus (b : Nat) (rest : List Char) (p : Int × Int) (d : Nat) :
    execOps b ('-' :: rest) p d =
      ⟨(execOps b rest p ((d + 3) &&& 3)).emits, (execOps b rest p ((d + 3) &&& 3)).pos,
        (execOps b rest p ((d + 3) &&& 3)).dir, (execOps b rest p ((d + 3) &&& 3)).steps + 1⟩ := by
  rw [execOps.eq_def]
  simp

theorem execOps_invoke_trunc (c : Char) (hc : c = '0' ∨ c = '1') (rest : List Char)
    (p : Int × Int) (d : Nat) :
    execOps 0 (c :: rest) p d =
      ⟨(execOps 0 rest p d).emits, (execOps 0 rest p d).pos,
        (execOps 0 rest p d).dir, (execOps 0 rest p d).steps + 1⟩ := by
  rcases hc with rfl | rfl <;> (rw [execOps.eq_def]; simp)

theorem execOps_invoke_push (b : Nat) (c : Char) (hc : c = '0' ∨ c = '1') (rest : List Char)
    (p : Int × Int) (d : Nat) :
    execOps (b + 1) (c :: rest) p d =
      ⟨(execFrame b (c.toNat - 48) p d).emits ++
          (execOps (b + 1) rest (execFrame b (c.toNat - 48) p d).pos
            (execFrame b (c.toNat - 48) p d).dir).emits,
        (execOps (b + 1) rest (execFrame b (c.toNat - 48) p d).pos
          (execFrame b (c.toNat - 48) p d).dir).pos,
        (execOps (b + 1) rest (execFrame b (c.toNat - 48) p d).pos
          (execFrame b (c.toNat - 48) p d).dir).dir,
        (execFrame b (c.toNat - 48) p d).steps +
          (execOps (b + 1) rest (execFrame b (c.toNat - 48) p d).pos
            (execFrame b (c.toNat - 48) p d).dir).steps + 1⟩ := by
  rcases hc with rfl | rfl <;> (rw [execOps.eq_def]; simp [execFrame])

theorem dirVec_plus (d : Nat) (hd : d < 4) :
    dirVec ((d + 1) &&& 3) = (-(dirVec d).2, (dirVec d).1) := by
  interval_cases d <;> rfl

theorem dirVec_minus (d : Nat) (hd : d < 4) :
    dirVec ((d + 3) &&& 3) = ((dirVec d).2, -(dirVec d).1) := by
  interval_cases d <;> rfl

theorem turn_plus_minus (d : Nat) (hd : d < 4) : (((d + 1) &&& 3) + 3) &&& 3 = d := by
  interval_cases d <;> rfl

theorem turn_minus_plus (d : Nat) (hd : d < 4) : (((d + 3) &&& 3) + 1) &&& 3 = d := by
  interval_cases d <;> rfl

theorem execOps_trunc0 (rest : List Char) (p : Int × Int) (d : Nat) :
    execOps 0 ('0' :: rest) p d =
      ⟨(execOps 0 rest p d).emits, (execOps 0 rest p d).pos,
        (execOps 0 rest p d).dir, (execOps 0 rest p d).steps + 1⟩ :=
  execOps_invoke_trunc '0' (Or.inl rfl) rest p d

theorem execOps_trunc1 (rest : List Char) (p : Int × Int) (d : Nat) :
    execOps 0 ('1' :: rest) p d =
      ⟨(execOps 0 rest p d).emits, (execOps 0 rest p d).pos,
        (execOps 0 rest p d).dir, (execOps 0 rest p d).steps + 1⟩ :=
  execOps_invoke_trunc '1' (Or.inr rfl) rest p d

theorem execOps_push0 (b : Nat) (rest : List Char) (p : Int × Int) (d : Nat) :
    execOps (b + 1) ('0' :: rest) p d =
      ⟨(execFrame b 0 p d).emits ++
          (execOps (b + 1) rest (execFrame b 0 p d).pos (execFrame b 0 p d).dir).emits,
        (execOps (b + 1) rest (execFrame b 0 p d).pos (execFrame b 0 p d).dir).pos,
        (execOps (b + 1) rest (execFrame b 0 p d).pos (execFrame b 0 p d).dir).dir,
        (execFrame b 0 p d).steps +
          (execOps (b + 1) rest (execFrame b 0 p d).pos (execFrame b 0 p d).dir).steps + 1⟩ :=
  execOps_invoke_push b '0' (Or.inl rfl) rest p d

theorem execOps_push1 (b : Nat) (rest : List Char) (p : Int × Int) (d : Nat) :
    execOps (b + 1) ('1' :: rest) p d =
      ⟨(execFrame b 1 p d).emits ++
          (execOps (b + 1) rest (execFrame b 1 p d).pos (execFrame b 1 p d).dir).emits,
        (execOps (b + 1) rest (execFrame b 1 p d).pos (execFrame b 1 p d).dir).pos,
        (execOps (b + 1) rest (execFrame b 1 p d).pos (execFrame b 1 p d).dir).dir,
        (execFrame b 1 p d).steps +
          (execOps (b + 1) rest (execFrame b 1 p d).pos (execFrame b 1 p d).dir).steps + 1⟩ :=
  execOps_invoke_push b '1' (Or.inr rfl) rest p d

theorem execFrame0_def (b : Nat) (p : Int × Int) (d : Nat) :
    execFrame b 0 p d =
      execOps b ['+', '1', '^', '-', '0', '^', '0', '-', '^', '1', '+'] p d := rfl

theorem execFrame1_def (b : Nat) (p : Int × Int) (d : Nat) :
    execFrame b 1 p d =
      execOps b ['-', '0', '^', '+', '1', '^', '1', '+', '^', '0', '-'] p d := rfl

theorem execFrame_spec (b : Nat) : ∀ r, r < 2 → ∀ d, d < 4 → ∀ p : Int × Int,
    (execFrame b r p d).dir = d ∧
    (execFrame b r p d).steps = 4 ^ (b + 2) - 4 ∧
    (execFrame b r p d).pos =
      affineMap p (dirVec d) (dirVec ((d + ruleTurn r) &&& 3)) (((2 ^ (b + 1) : Nat) : Int) - 1, 0) ∧
    p :: (execFrame b r p d).emits =
      (hilbertList (b + 1)).map (affineMap p (dirVec d) (dirVec ((d + ruleTurn r) &&& 3))) := by
  induction b with
  | zero =>
    have h1 : hilbertList 1 = [(0, 0), (0, 1), (1, 1), (1, 0)] := by decide
    intro r hr d hd p
    interval_cases r <;> interval_cases d <;>
      simp [execFrame0_def, execFrame1_def, execOps_plus, execOps_minus, execOps_move,
        execOps_trunc0, execOps_trunc1, execOps_nil, h1, dirVec, affineMap, ruleTurn,
        Prod.ext_iff] <;>
      decide
  | succ b ih =>
    intro r hr d hd p
    have ihdir : ∀ r', r' < 2 → ∀ δ, δ < 4 → ∀ q, (execFrame b r' q δ).dir = δ :=
      fun r' hr' δ hδ q => (ih r' hr' δ hδ q).1
    have ihsteps : ∀ r', r' < 2 → ∀ δ, δ < 4 → ∀ q,
        (execFrame b r' q δ).steps = 4 ^ (b + 2) - 4 :=
      fun r' hr' δ hδ q => (ih r' hr' δ hδ q).2.1
    have ihpos : ∀ r', r' < 2 → ∀ δ, δ < 4 → ∀ q, (execFrame b r' q δ).pos =
        affineMap q (dirVec δ) (dirVec ((δ + ruleTurn r') &&& 3))
          (((2 ^ (b + 1) : Nat) : Int) - 1, 0) :=
      fun r' hr' δ hδ q => (ih r' hr' δ hδ q).2.2.1
    have ihemits : ∀ r', r' < 2 → ∀ δ, δ < 4 → ∀ q,
        q :: (execFrame b r' q δ).emits =
          (hilbertList (b + 1)).map
            (affineMap q (dirVec δ) (dirVec ((δ + ruleTurn r') &&& 3))) :=
      fun r' hr' δ hδ q => (ih r' hr' δ hδ q).2.2.2
    have hem00 : ∀ q, q :: (execFrame b 0 q 0).emits =
        (hilbertList (b + 1)).map (affineMap q (1, 0) (0, 1)) := fun q => by
      simpa [ruleTurn, dirVec] using ihemits 0 (by norm_num) 0 (by norm_num) q
    have hem01 : ∀ q, q :: (execFrame b 0 q 1).emits =
        (hilbertList (b + 1)).map (affineMap q (0, 1) (-1, 0)) := fun q => by
      simpa [ruleTurn, dirVec] using ihemits 0 (by norm_num) 1 (by norm_num) q
    have hem02 : ∀ q, q :: (execFrame b 0 q 2).emits =
        (hilbertList (b + 1)).map (affineMap q (-1, 0) (0, -1)) := fun q => by
      simpa [ruleTurn, dirVec] using ihemits 0 (by norm_num) 2 (by norm_num) q
    have hem03 : ∀ q, q :: (execFrame b 0 q 3).emits =
        (hilbertList (b + 1)).map (affineMap q (0, -1) (1, 0)) := fun q => by
      simpa [ruleTurn, dirVec] using ihemits 0 (by norm_num) 3 (by norm_num) q
    have hem10 : ∀ q, q :: (execFrame b 1 q 0).emits =
        (hilbertList (b + 1)).map (affineMap q (1, 0) (0, -1)) := fun q => by
      simpa [ruleTurn, dirVec] using ihemits 1 (by norm_num) 0 (by norm_num) q
    have hem11 : ∀ q, q :: (execFrame b 1 q 1).emits =
        (hilbertList (b + 1)).map (affineMap q (0, 1) (1, 0)) := fun q => by
      simpa [ruleTurn, dirVec] using ihemits 1 (by norm_num) 1 (by norm_num) q
    have hem12 : ∀ q, q :: (execFrame b 1 q 2).emits =
        (hilbertList (b + 1)).map (affineMap q (-1, 0) (0, 1)) := fun q => by
      simpa [ruleTurn, dirVec] using ihemits 1 (by norm_num) 2 (by norm_num) q
    have hem13 : ∀ q, q :: (execFrame b 1 q 3).emits =
        (hilbertList (b + 1)).map (affineMap q (0, -1) (-1, 0)) := fun q => by
      simpa [ruleTurn, dirVec] using ihemits 1 (by norm_num) 3 (by norm_num) q
    have la1 : 1 &&& 3 = 1 := rfl
    have la2 : 2 &&& 3 = 2 := rfl
    have la3 : 3 &&& 3 = 3 := rfl
    have la4 : 4 &&& 3 = 0 := rfl
    have la5 : 5 &&& 3 = 1 := rfl
    have la6 : 6 &&& 3 = 2 := rfl
    have hpow : (4 : Nat) ^ (b + 1 + 2) = 4 * 4 ^ (b + 2) := by ring
    have hpple : 4 ≤ (4 : Nat) ^ (b + 2) := by
      calc (4 : Nat) = 4 ^ 1 := by norm_num
      _ ≤ 4 ^ (b + 2) := Nat.pow_le_pow_right (by norm_num) (by omega)
    have hs2 : ((2 ^ (b + 1 + 1) : Nat) : Int) = 2 * ((2 ^ (b + 1) : Nat) : Int) := by
      push_cast
      ring
    interval_cases r
    · interval_cases d <;>
        (refine ⟨?_, ?_, ?_, ?_⟩ <;>
        [(rw [execFrame0_def];
          simp [execOps_plus, execOps_minus, execOps_move,
            execOps_push0, execOps_push1, execOps_nil, ihdir, la1, la2, la3, la4, la5, la6]);
         (rw [execFrame0_def];
          simp [execOps_plus, execOps_minus, execOps_move,
            execOps_push0, execOps_push1, execOps_nil, ihdir, ihsteps,
            la1, la2, la3, la4, la5, la6, hpow];
          omega);
         (rw [execFrame0_def];
          simp [execOps_plus, execOps_minus, execOps_move,
            execOps_push0, execOps_push1, execOps_nil, ihdir, ihpos,
            la1, la2, la3, la4, la5, la6, ruleTurn, dirVec, affineMap, hs2, Prod.ext_iff];
          constructor <;> ring);
         (rw [execFrame0_def, hilbertList_succ];
          simp [execOps_plus, execOps_minus, execOps_move,
            execOps_push0, execOps_push1, execOps_nil, ihdir, ihpos,
            la1, la2, la3, la4, la5, la6, ruleTurn, dirVec, List.map_map,
            -List.cons_append];
          simp only [← List.cons_append];
          simp only [hem00, hem01, hem02, hem03, hem10, hem11, hem12, hem13];
          congr 1;
          rotate_left;
          congr 1;
          rotate_left;
          congr 1;
          all_goals
            (apply List.map_congr_left;
             intro c hc;
             simp only [Function.comp_apply, affineMap, quadMap, Prod.mk.injEq];
             constructor <;> ring))])
    · interval_cases d <;>
        (refine ⟨?_, ?_, ?_, ?_⟩ <;>
        [(rw [execFrame1_def];
          simp [execOps_plus, execOps_minus, execOps_move,
            execOps_push0, execOps_push1, execOps_nil, ihdir, la1, la2, la3, la4, la5, la6]);
         (rw [execFrame1_def];
          simp [execOps_plus, execOps_minus, execOps_move,
            execOps_push0, execOps_push1, execOps_nil, ihdir, ihsteps,
            la1, la2, la3, la4, la5, la6, hpow];
          omega);
         (rw [execFrame1_def];
          simp [execOps_plus, execOps_minus, execOps_move,
            execOps_push0, execOps_push1, execOps_nil, ihdir, ihpos,
            la1, la2, la3, la4, la5, la6, ruleTurn, dirVec, affineMap, hs2, Prod.ext_iff];
          constructor <;> ring);
         (rw [execFrame1_def, hilbertList_succ];
          simp [execOps_plus, execOps_minus, execOps_move,
            execOps_push0, execOps_push1, execOps_nil, ihdir, ihpos,
            la1, la2, la3, la4, la5, la6, ruleTurn, dirVec, List.map_map,
            -List.cons_append];
          simp only [← List.cons_append];
          simp only [hem00, hem01, hem02, hem03, hem10, hem11, hem12, hem13];
          congr 1;
          rotate_left;
          congr 1;
          rotate_left;
          congr 1;
          all_goals
            (apply List.map_congr_left;
             intro c hc;
             simp only [Function.comp_apply, affineMap, quadMap, Prod.mk.injEq];
             constructor <;> ring))])

theorem runStepsAux_add (a : Nat) :
    ∀ (c : Nat) (l : lindenmayer_system) (acc : List (Int × Int)),
      runStepsAux (a + c) l acc =
        runStepsAux c (runStepsAux a l acc).2 (runStepsAux a l acc).1 := by
  induction a with
  | zero =>
    intro c l acc
    simp [runStepsAux]
  | succ a iha =>
    intro c l acc
    rw [show a + 1 + c = (a + c) + 1 by omega]
    rw [runStepsAux]
    rw [runStepsAux]
    rcases h : lstep l with ⟨res, l2⟩
    rcases res with ⟨xx, yy⟩ | _ | _ <;> simp <;> rw [iha]

theorem lstep_halted (l : lindenmayer_system) (h : l.state = 2) :
    lstep l = (StepRes.halt, l) := by
  rw [lstep, if_pos (by omega)]

theorem runStepsAux_halted (f : Nat) :
    ∀ (l : lindenmayer_system) (acc : List (Int × Int)), l.state = 2 →
      runStepsAux f l acc = (acc, l) := by
  induction f with
  | zero => intro l acc h; rfl
  | succ f ihf =>
    intro l acc h
    rw [runStepsAux, lstep_halted l h]
    exact ihf l acc h

theorem lstep_pop (rules : List (List Char)) (d : Nat) (r pc : Nat) (S : List (Nat × Nat))
    (x y : Int) (δ : Nat) (hge : (rules.getD r []).length ≤ pc) :
    lstep ⟨rules, d, (r, pc) :: S, 1, x, y, δ⟩ =
      (StepRes.cont, ⟨rules, d, bumpStack S, 1, x, y, δ⟩) := by
  rw [lstep]
  rw [if_neg (by norm_num), if_neg (by norm_num)]
  simp only []
  rw [if_pos hge]
  rcases S with _ | ⟨⟨ri2, pc2⟩, rest2⟩ <;> rfl

theorem lstep_move (rules : List (List Char)) (d : Nat) (r pc : Nat) (S : List (Nat × Nat))
    (x y : Int) (δ : Nat) (hlt : pc < (rules.getD r []).length)
    (hop : (rules.getD r []).getD pc ' ' = '^') :
    lstep ⟨rules, d, (r, pc) :: S, 1, x, y, δ⟩ =
      (StepRes.emit (x + (dirVec δ).1) (y + (dirVec δ).2),
        ⟨rules, d, (r, pc + 1) :: S, 1, x + (dirVec δ).1, y + (dirVec δ).2, δ⟩) := by
  rw [lstep]
  rw [if_neg (by norm_num), if_neg (by norm_num)]
  simp only []
  rw [if_neg (by omega), hop, if_pos rfl]
  rcases δ with _ | _ | _ | _ | n <;> simp [dirVec, sub_eq_add_neg]

theorem lstep_plus (rules : List (List Char)) (d : Nat) (r pc : Nat) (S : List (Nat × Nat))
    (x y : Int) (δ : Nat) (hlt : pc < (rules.getD r []).length)
    (hop : (rules.getD r []).getD pc ' ' = '+') :
    lstep ⟨rules, d, (r, pc) :: S, 1, x, y, δ⟩ =
      (StepRes.cont, ⟨rules, d, (r, pc + 1) :: S, 1, x, y, (δ + 1) &&& 3⟩) := by
  rw [lstep]
  rw [if_neg (by norm_num), if_neg (by norm_num)]
  simp only []
  rw [if_neg (by omega), hop]
  rfl

theorem lstep_minus (rules : List (List Char)) (d : Nat) (r pc : Nat) (S : List (Nat × Nat))
    (x y : Int) (δ : Nat) (hlt : pc < (rules.getD r []).length)
    (hop : (rules.getD r []).getD pc ' ' = '-') :
    lstep ⟨rules, d, (r, pc) :: S, 1, x, y, δ⟩ =
      (StepRes.cont, ⟨rules, d, (r, pc + 1) :: S, 1, x, y, (δ + 3) &&& 3⟩) := by
  rw [lstep]
  rw [if_neg (by norm_num), if_neg (by norm_num)]
  simp only []
  rw [if_neg (by omega), hop]
  rfl

theorem lstep_invoke_trunc (rules : List (List Char)) (d : Nat) (r pc : Nat)
    (S : List (Nat × Nat)) (x y : Int) (δ : Nat) (c : Char)
    (hlt : pc < (rules.getD r []).length) (hop : (rules.getD r []).getD pc ' ' = c)
    (hc : c = '0' ∨ c = '1') (hnp : ¬ (S.length + 1 < d)) :
    lstep ⟨rules, d, (r, pc) :: S, 1, x, y, δ⟩ =
      (StepRes.cont, ⟨rules, d, (r, pc + 1) :: S, 1, x, y, δ⟩) := by
  rw [lstep]
  rw [if_neg (by norm_num), if_neg (by norm_num)]
  simp only []
  rw [if_neg (by omega), hop]
  rcases hc with rfl | rfl <;>
    (rw [if_neg (by decide), if_neg (by decide), if_neg (by decide)]
     simp only [List.length_cons]
     rw [if_neg hnp])

theorem lstep_invoke_push (rules : List (List Char)) (d : Nat) (r pc : Nat)
    (S : List (Nat × Nat)) (x y : Int) (δ : Nat) (c : Char)
    (hlt : pc < (rules.getD r []).length) (hop : (rules.getD r []).getD pc ' ' = c)
    (hc : c = '0' ∨ c = '1') (hp : S.length + 1 < d) :
    lstep ⟨rules, d, (r, pc) :: S, 1, x, y, δ⟩ =
      (StepRes.cont, ⟨rules, d, (c.toNat - 48, 0) :: (r, pc) :: S, 1, x, y, δ⟩) := by
  rw [lstep]
  rw [if_neg (by norm_num), if_neg (by norm_num)]
  simp only []
  rw [if_neg (by omega), hop]
  rcases hc with rfl | rfl <;>
    (rw [if_neg (by decide), if_neg (by decide), if_neg (by decide)]
     simp only [List.length_cons]
     rw [if_pos hp])

theorem canonChar (r : Nat) (hr : r < 2) :
    ∀ c ∈ canonRuleList.getD r [], c = '+' ∨ c = '-' ∨ c = '^' ∨ c = '0' ∨ c = '1' := by
  intro c hc
  interval_cases r
  · rw [canonRule0] at hc
    simp at hc
    tauto
  · rw [canonRule1] at hc
    simp at hc
    tauto

theorem runStepsAux_cont {n : Nat} {l l2 : lindenmayer_system} {acc : List (Int × Int)}
    (h : lstep l = (StepRes.cont, l2)) :
    runStepsAux (n + 1) l acc = runStepsAux n l2 acc := by
  rw [runStepsAux, h]

theorem runStepsAux_emit {n : Nat} {l l2 : lindenmayer_system} {acc : List (Int × Int)}
    {x y : Int} (h : lstep l = (StepRes.emit x y, l2)) :
    runStepsAux (n + 1) l acc = runStepsAux n l2 ((x, y) :: acc) := by
  rw [runStepsAux, h]

theorem opsBridge (b : Nat) : ∀ r, r < 2 → ∀ suffix pc,
    (canonRuleList.getD r []).drop pc = suffix →
    ∀ d S (p : Int × Int) (δ : Nat) acc, d - (S.length + 1) = b →
    runStepsAux (execOps b suffix p δ).steps
        ⟨canonRuleList, d, (r, pc) :: S, 1, p.1, p.2, δ⟩ acc =
      ((execOps b suffix p δ).emits.reverse ++ acc,
       ⟨canonRuleList, d, bumpStack S, 1, (execOps b suffix p δ).pos.1,
          (execOps b suffix p δ).pos.2, (execOps b suffix p δ).dir⟩) := by
  induction b with
  | zero =>
    intro r hr suffix
    induction suffix with
    | nil =>
      intro pc hdrop d S p δ acc hb
      have hlen := congrArg List.length hdrop
      simp only [List.length_drop, List.length_nil] at hlen
      have hge : (canonRuleList.getD r []).length ≤ pc := by omega
      simp only [execOps_nil]
      rw [show (1 : Nat) = 0 + 1 from rfl,
        runStepsAux_cont (lstep_pop canonRuleList d r pc S p.1 p.2 δ hge)]
      rfl
    | cons c rest ihs =>
      intro pc hdrop d S p δ acc hb
      have hne : (canonRuleList.getD r []).drop pc ≠ [] := by
        rw [hdrop]
        simp
      have hlt : pc < (canonRuleList.getD r []).length := by
        by_contra hcon
        push_neg at hcon
        exact hne (List.drop_eq_nil_of_le hcon)
      have hgd : (canonRuleList.getD r []).getD pc ' ' = c := by
        rw [List.getD_eq_getElem?_getD, ← List.head?_drop, hdrop]
        rfl
      have hdrop2 : (canonRuleList.getD r []).drop (pc + 1) = rest := by
        rw [← List.tail_drop, hdrop]
        rfl
      have hmem : c ∈ canonRuleList.getD r [] := by
        apply List.drop_subset pc
        rw [hdrop]
        exact List.mem_cons_self c rest
      rcases canonChar r hr c hmem with rfl | rfl | rfl | rfl | rfl
      · rw [execOps_plus]
        dsimp only
        rw [runStepsAux_cont (lstep_plus canonRuleList d r pc S p.1 p.2 δ hlt hgd)]
        exact ihs (pc + 1) hdrop2 d S p ((δ + 1) &&& 3) acc hb
      · rw [execOps_minus]
        dsimp only
        rw [runStepsAux_cont (lstep_minus canonRuleList d r pc S p.1 p.2 δ hlt hgd)]
        exact ihs (pc + 1) hdrop2 d S p ((δ + 3) &&& 3) acc hb
      · rw [execOps_move]
        dsimp only
        rw [runStepsAux_emit (lstep_move canonRuleList d r pc S p.1 p.2 δ hlt hgd)]
        have H := ihs (pc + 1) hdrop2 d S (p.1 + (dirVec δ).1, p.2 + (dirVec δ).2) δ
          ((p.1 + (dirVec δ).1, p.2 + (dirVec δ).2) :: acc) hb
        exact H.trans (by simp)
      · have hnp : ¬ (S.length + 1 < d) := by omega
        rw [execOps_trunc0]
        dsimp only
        rw [runStepsAux_cont (lstep_invoke_trunc canonRuleList d r pc S p.1 p.2 δ '0' hlt hgd
          (Or.inl rfl) hnp)]
        exact ihs (pc + 1) hdrop2 d S p δ acc hb
      · have hnp : ¬ (S.length + 1 < d) := by omega
        rw [execOps_trunc1]
        dsimp only
        rw [runStepsAux_cont (lstep_invoke_trunc canonRuleList d r pc S p.1 p.2 δ '1' hlt hgd
          (Or.inr rfl) hnp)]
        exact ihs (pc + 1) hdrop2 d S p δ acc hb
  | succ b ihb =>
    intro r hr suffix
    induction suffix with
    | nil =>
      intro pc hdrop d S p δ acc hb
      have hlen := congrArg List.length hdrop
      simp only [List.length_drop, List.length_nil] at hlen
      have hge : (canonRuleList.getD r []).length ≤ pc := by omega
      simp only [execOps_nil]
      rw [show (1 : Nat) = 0 + 1 from rfl,
        runStepsAux_cont (lstep_pop canonRuleList d r pc S p.1 p.2 δ hge)]
      rfl
    | cons c rest ihs =>
      intro pc hdrop d S p δ acc hb
      have hne : (canonRuleList.getD r []).drop pc ≠ [] := by
        rw [hdrop]
        simp
      have hlt : pc < (canonRuleList.getD r []).length := by
        by_contra hcon
        push_neg at hcon
        exact hne (List.drop_eq_nil_of_le hcon)
      have hgd : (canonRuleList.getD r []).getD pc ' ' = c := by
        rw [List.getD_eq_getElem?_getD, ← List.head?_drop, hdrop]
        rfl
      have hdrop2 : (canonRuleList.getD r []).drop (pc + 1) = rest := by
        rw [← List.tail_drop, hdrop]
        rfl
      have hmem : c ∈ canonRuleList.getD r [] := by
        apply List.drop_subset pc
        rw [hdrop]
        exact List.mem_cons_self c rest
      rcases canonChar r hr c hmem with rfl | rfl | rfl | rfl | rfl
      · rw [execOps_plus]
        dsimp only
        rw [runStepsAux_cont (lstep_plus canonRuleList d r pc S p.1 p.2 δ hlt hgd)]
        exact ihs (pc + 1) hdrop2 d S p ((δ + 1) &&& 3) acc hb
      · rw [execOps_minus]
        dsimp only
        rw [runStepsAux_cont (lstep_minus canonRuleList d r pc S p.1 p.2 δ hlt hgd)]
        exact ihs (pc + 1) hdrop2 d S p ((δ + 3) &&& 3) acc hb
      · rw [execOps_move]
        dsimp only
        rw [runStepsAux_emit (lstep_move canonRuleList d r pc S p.1 p.2 δ hlt hgd)]
        have H := ihs (pc + 1) hdrop2 d S (p.1 + (dirVec δ).1, p.2 + (dirVec δ).2) δ
          ((p.1 + (dirVec δ).1, p.2 + (dirVec δ).2) :: acc) hb
        exact H.trans (by simp)
      · have hp : S.length + 1 < d := by omega
        rw [execOps_push0]
        dsimp only
        have hf : execFrame b 0 p δ = execOps b (canonRuleList.getD 0 []) p δ := rfl
        rw [hf]
        rw [runStepsAux_cont (lstep_invoke_push canonRuleList d r pc S p.1 p.2 δ '0' hlt hgd
          (Or.inl rfl) hp)]
        have hch : ('0'.toNat - 48 : Nat) = 0 := rfl
        rw [hch, runStepsAux_add]
        have hchild := ihb 0 (by norm_num) (canonRuleList.getD 0 []) 0 (List.drop_zero _)
          d ((r, pc) :: S) p δ acc (by simp only [List.length_cons]; omega)
        have hbs : bumpStack ((r, pc) :: S) = (r, pc + 1) :: S := rfl
        rw [hbs] at hchild
        rw [hchild]
        dsimp only
        have H := ihs (pc + 1) hdrop2 d S ((execOps b (canonRuleList.getD 0 []) p δ).pos)
          ((execOps b (canonRuleList.getD 0 []) p δ).dir)
          (((execOps b (canonRuleList.getD 0 []) p δ).emits).reverse ++ acc) hb
        rw [H]
        simp [List.reverse_append, List.append_assoc]
      · have hp : S.length + 1 < d := by omega
        rw [execOps_push1]
        dsimp only
        have hf : execFrame b 1 p δ = execOps b (canonRuleList.getD 1 []) p δ := rfl
        rw [hf]
        rw [runStepsAux_cont (lstep_invoke_push canonRuleList d r pc S p.1 p.2 δ '1' hlt hgd
          (Or.inr rfl) hp)]
        have hch : ('1'.toNat - 48 : Nat) = 1 := rfl
        rw [hch, runStepsAux_add]
        have hchild := ihb 1 (by norm_num) (canonRuleList.getD 1 []) 0 (List.drop_zero _)
          d ((r, pc) :: S) p δ acc (by simp only [List.length_cons]; omega)
        have hbs : bumpStack ((r, pc) :: S) = (r, pc + 1) :: S := rfl
        rw [hbs] at hchild
        rw [hchild]
        dsimp only
        have H := ihs (pc + 1) hdrop2 d S ((execOps b (canonRuleList.getD 1 []) p δ).pos)
          ((execOps b (canonRuleList.getD 1 []) p δ).dir)
          (((execOps b (canonRuleList.getD 1 []) p δ).emits).reverse ++ acc) hb
        rw [H]
        simp [List.reverse_append, List.append_assoc]

theorem lstep_seed (w : Nat) :
    lstep (lindenmayer_system_init canonicalRules w) =
      (StepRes.emit 0 0, ⟨canonRuleList, w, [(0, 0)], 1, 0, 0, 0⟩) := rfl

theorem lstep_empty (rules : List (List Char)) (d : Nat) (x y : Int) (δ : Nat) :
    lstep ⟨rules, d, [], 1, x, y, δ⟩ = (StepRes.halt, ⟨rules, d, [], 2, x, y, δ⟩) := rfl

theorem runStepsAux_halt {n : Nat} {l l2 : lindenmayer_system} {acc : List (Int × Int)}
    (h : lstep l = (StepRes.halt, l2)) :
    runStepsAux (n + 1) l acc = runStepsAux n l2 acc := by
  rw [runStepsAux, h]

theorem engineRun (w k : Nat) :
    runStepsAux ((execOps (w - 1) (canonRuleList.getD 0 []) (0, 0) 0).steps + (1 + k) + 1)
        (lindenmayer_system_init canonicalRules w) [] =
      ((((0 : Int), (0 : Int)) ::
          (execOps (w - 1) (canonRuleList.getD 0 []) (0, 0) 0).emits).reverse,
       ⟨canonRuleList, w, [], 2,
        (execOps (w - 1) (canonRuleList.getD 0 []) (0, 0) 0).pos.1,
        (execOps (w - 1) (canonRuleList.getD 0 []) (0, 0) 0).pos.2,
        (execOps (w - 1) (canonRuleList.getD 0 []) (0, 0) 0).dir⟩) := by
  rw [runStepsAux_emit (lstep_seed w), runStepsAux_add]
  have hb := opsBridge (w - 1) 0 (by norm_num) (canonRuleList.getD 0 []) 0 (List.drop_zero _)
    w [] ((0, 0) : Int × Int) 0 [((0, 0) : Int × Int)] (by simp)
  dsimp only at hb
  rw [hb]
  dsimp only [bumpStack]
  rw [Nat.add_comm 1 k, runStepsAux_halt (lstep_empty canonRuleList w _ _ _),
    runStepsAux_halted k _ _ rfl]
  simp

theorem execSteps_le (w : Nat) :
    (execOps (w - 1) (canonRuleList.getD 0 []) (0, 0) 0).steps + 2 ≤ curveFuel w := by
  have h := (execFrame_spec (w - 1) 0 (by norm_num) 0 (by norm_num) ((0, 0) : Int × Int)).2.1
  have hf : execFrame (w - 1) 0 ((0, 0) : Int × Int) 0 =
      execOps (w - 1) (canonRuleList.getD 0 []) ((0, 0) : Int × Int) 0 := rfl
  rw [hf] at h
  rw [h, curveFuel]
  rcases w with _ | v
  · decide
  · have h2 : v + 1 - 1 + 2 = v + 1 + 1 := by omega
    rw [h2]
    have hp : 4 ^ 1 ≤ 4 ^ (v + 1 + 1) := Nat.pow_le_pow_right (by norm_num) (by omega)
    omega

theorem emissionList_eq (w : Nat) : emissionList w = hilbertList (w - 1 + 1) := by
  obtain ⟨k, hk⟩ : ∃ k, curveFuel w =
      (execOps (w - 1) (canonRuleList.getD 0 []) (0, 0) 0).steps + (1 + k) + 1 :=
    ⟨curveFuel w - ((execOps (w - 1) (canonRuleList.getD 0 []) (0, 0) 0).steps + 2),
      by have := execSteps_le w; omega⟩
  rw [emissionList, hk, engineRun w k]
  dsimp only
  rw [List.reverse_reverse]
  have h := (execFrame_spec (w - 1) 0 (by norm_num) 0 (by norm_num) ((0, 0) : Int × Int)).2.2.2
  have hf : execFrame (w - 1) 0 ((0, 0) : Int × Int) 0 =
      execOps (w - 1) (canonRuleList.getD 0 []) ((0, 0) : Int × Int) 0 := rfl
  rw [hf] at h
  rw [h]
  have hid : affineMap ((0, 0) : Int × Int) (dirVec 0) (dirVec ((0 + ruleTurn 0) &&& 3)) = id := by
    funext c
    have hl : ((0 + ruleTurn 0) &&& 3) = 1 := rfl
    rw [hl]
    obtain ⟨a, b⟩ := c
    simp [affineMap, dirVec]
  rw [hid, List.map_id]

theorem engineFinalState (w : Nat) :
    ((runStepsAux (curveFuel w) (lindenmayer_system_init canonicalRules w) []).2).state = 2 := by
  obtain ⟨k, hk⟩ : ∃ k, curveFuel w =
      (execOps (w - 1) (canonRuleList.getD 0 []) (0, 0) 0).steps + (1 + k) + 1 :=
    ⟨curveFuel w - ((execOps (w - 1) (canonRuleList.getD 0 []) (0, 0) 0).steps + 2),
      by have := execSteps_le w; omega⟩
  rw [hk, engineRun w k]

theorem emissionList_length (w : Nat) : (emissionList w).length = 4 ^ (w - 1 + 1) := by
  rw [emissionList_eq, hilbertList_length]

theorem lstep_inv (l : lindenmayer_system) (hdir : l.direction < 4)
    (hstk : l.stack.length ≤ max 1 l.depth) :
    (lstep l).2.direction < 4 ∧ (lstep l).2.stack.length ≤ max 1 (lstep l).2.depth ∧
      (lstep l).2.depth = l.depth := by
  obtain ⟨rules, depth, stack, state, x, y, δ⟩ := l
  simp only at hdir hstk
  rw [lstep]
  dsimp only
  split_ifs with h1 h2 hpush
  · exact ⟨hdir, hstk, rfl⟩
  · exact ⟨hdir, by simp, rfl⟩
  · rcases stack with _ | ⟨⟨ri, pc⟩, rest⟩
    · exact ⟨hdir, by simp, rfl⟩
    · dsimp only
      split_ifs with h3 h4 h5 h6
      · rcases rest with _ | ⟨⟨ri2, pc2⟩, rest2⟩
        · exact ⟨hdir, by simp, rfl⟩
        · refine ⟨hdir, ?_, rfl⟩
          simp only [List.length_cons] at hstk ⊢
          omega
      · exact ⟨hdir, by simpa using hstk, rfl⟩
      · exact ⟨land3_lt _, by simpa using hstk, rfl⟩
      · exact ⟨land3_lt _, by simpa using hstk, rfl⟩
      · refine ⟨hdir, ?_, rfl⟩
        simp only [List.length_cons] at hstk hpush ⊢
        omega
  · rcases stack with _ | ⟨⟨ri, pc⟩, rest⟩
    · exact ⟨hdir, by simp, rfl⟩
    · dsimp only
      split_ifs with h3 h4 h5 h6
      · rcases rest with _ | ⟨⟨ri2, pc2⟩, rest2⟩
        · exact ⟨hdir, by simp, rfl⟩
        · refine ⟨hdir, ?_, rfl⟩
          simp only [List.length_cons] at hstk ⊢
          omega
      · exact ⟨hdir, by simpa using hstk, rfl⟩
      · exact ⟨land3_lt _, by simpa using hstk, rfl⟩
      · exact ⟨land3_lt _, by simpa using hstk, rfl⟩
      · exact ⟨hdir, by simpa using hstk, rfl⟩

theorem Reach_inv (rules : List String) (depth : Nat) :
    ∀ l, Reach rules depth l →
      l.direction < 4 ∧ l.stack.length ≤ max 1 l.depth ∧ l.depth = depth := by
  intro l h
  induction h with
  | init =>
    refine ⟨?_, ?_, rfl⟩ <;> simp [lindenmayer_system_init]
  | step hl ih =>
    obtain ⟨ih1, ih2, ih3⟩ := ih
    obtain ⟨j1, j2, j3⟩ := lstep_inv _ ih1 ih2
    exact ⟨j1, j2, j3.trans ih3⟩

theorem one_shiftl_two_mul (w : Nat) : (1 : Nat) <<< (2 * w) = 4 ^ w := by
  rw [Nat.shiftLeft_eq, one_mul, pow_mul]
  norm_num

theorem widthLog2Loop_spec (N fuel : Nat) : ∀ w, N ≤ 4 ^ (w + fuel) →
    N ≤ 4 ^ widthLog2Loop N fuel w ∧
    (widthLog2Loop N fuel w = w ∨ 4 ^ (widthLog2Loop N fuel w - 1) < N) ∧
    w ≤ widthLog2Loop N fuel w := by
  induction fuel with
  | zero =>
    intro w hN
    rw [Nat.add_zero] at hN
    exact ⟨hN, Or.inl rfl, Nat.le_refl w⟩
  | succ fuel ih =>
    intro w hN
    rw [widthLog2Loop, one_shiftl_two_mul]
    split_ifs with hc
    · obtain ⟨j1, j2, j3⟩ := ih (w + 1) (by rw [Nat.add_right_comm]; exact hN)
      refine ⟨j1, ?_, by omega⟩
      rcases j2 with he | hlt
      · right
        rw [he]
        simpa using hc
      · exact Or.inr hlt
    · exact ⟨by omega, Or.inl rfl, Nat.le_refl w⟩

theorem computeWidthLog2_spec (N : Nat) (h1 : 1 ≤ N) :
    N ≤ 4 ^ computeWidthLog2 N ∧
    (computeWidthLog2 N = 0 ∨ 4 ^ (computeWidthLog2 N - 1) < N) := by
  obtain ⟨j1, j2, _⟩ := widthLog2Loop_spec N N 0
    (by simpa using (Nat.lt_pow_self (show 1 < 4 by norm_num) N).le)
  exact ⟨j1, j2⟩

theorem cellIdx_lt (w : Nat) (p : Int × Int)
    (h : 0 ≤ p.1 ∧ p.1 < ((2 ^ w : Nat) : Int) ∧ 0 ≤ p.2 ∧ p.2 < ((2 ^ w : Nat) : Int)) :
    cellIdx w p < 4 ^ w := by
  obtain ⟨a, b⟩ := p
  obtain ⟨h1, h2, h3, h4⟩ := h
  simp only at h1 h2 h3 h4
  simp only [cellIdx]
  have hs : ((2 ^ w : Nat) : Int) = 2 ^ w := by push_cast; ring
  rw [hs] at h2 h4
  have hspos : (0 : Int) < 2 ^ w := by positivity
  have hlt : b * 2 ^ w + a < 2 ^ w * 2 ^ w := by nlinarith
  have h4w : ((4 ^ w : Nat) : Int) = 2 ^ w * 2 ^ w := by
    push_cast
    rw [show (4 : Int) = 2 * 2 from rfl, mul_pow]
  have h4pos : (0 : Int) < 2 ^ w * 2 ^ w := by positivity
  omega

theorem buildReverseAux_spec (w : Nat) : ∀ coords (i : Nat) (rev : List Int),
    (coords.map (cellIdx w)).Nodup →
    (∀ p ∈ coords,
      0 ≤ p.1 ∧ p.1 < ((2 ^ w : Nat) : Int) ∧ 0 ≤ p.2 ∧ p.2 < ((2 ^ w : Nat) : Int)) →
    rev.length = 4 ^ w →
    ∃ out, buildReverseAux w i coords rev = some out ∧ out.length = rev.length ∧
      (∀ c, c ∉ coords.map (cellIdx w) → out.getD c (-1) = rev.getD c (-1)) ∧
      ∀ j, j < coords.length →
        out.getD (cellIdx w (coords.getD j (0, 0))) (-1) = Int.ofNat (i + j) := by
  intro coords
  induction coords with
  | nil =>
    intro i rev _ _ _
    exact ⟨rev, rfl, rfl, fun c _ => rfl, fun j hj => by simp at hj⟩
  | cons p rest ih =>
    intro i rev hnd hbnd hlen
    obtain ⟨px, py⟩ := p
    obtain ⟨b1, b2, b3, b4⟩ := hbnd (px, py) (List.mem_cons_self _ _)
    simp only at b1 b2 b3 b4
    simp only [List.map_cons, List.nodup_cons] at hnd
    have hguard : 0 ≤ px ∧ px < 2 ^ w ∧ 0 ≤ py ∧ py < 2 ^ w := by
      have hs : ((2 ^ w : Nat) : Int) = 2 ^ w := by push_cast; ring
      rw [hs] at b2 b4
      exact ⟨b1, b2, b3, b4⟩
    obtain ⟨out, hsome, hlen2, hframe, hget⟩ := ih (i + 1)
      (rev.set (cellIdx w (px, py)) (Int.ofNat i)) hnd.2
      (fun q hq => hbnd q (List.mem_cons_of_mem _ hq))
      (by rw [List.length_set, hlen])
    have hcb : cellIdx w (px, py) < 4 ^ w :=
      cellIdx_lt w (px, py) (hbnd (px, py) (List.mem_cons_self _ _))
    refine ⟨out, ?_, ?_, ?_, ?_⟩
    · rw [buildReverseAux, if_pos hguard]
      exact hsome
    · rw [hlen2, List.length_set]
    · intro c hc
      simp only [List.map_cons, List.mem_cons, not_or] at hc
      rw [hframe c hc.2, List.getD_eq_getElem?_getD, List.getD_eq_getElem?_getD,
        List.getElem?_set_ne (show cellIdx w (px, py) ≠ c from fun he => hc.1 he.symm)]
    · intro j hj
      rcases j with _ | j
      · have hcell : cellIdx w (((((px, py) : Int × Int)) :: rest).getD 0 (0, 0)) =
            cellIdx w (px, py) := rfl
        rw [hcell, hframe (cellIdx w (px, py)) hnd.1, List.getD_eq_getElem?_getD,
          List.getElem?_set_self (by rw [hlen]; exact hcb), Nat.add_zero]
        rfl
      · have hgd : ((((px, py) : Int × Int)) :: rest).getD (j + 1) (0, 0) =
            rest.getD j (0, 0) := rfl
        rw [hgd, hget j (by simpa using Nat.lt_of_succ_lt_succ hj)]
        congr 1
        omega

theorem computeWidthLog2_pos (N : Nat) (h2 : 2 ≤ N) : 1 ≤ computeWidthLog2 N := by
  by_contra h
  push_neg at h
  have hz : computeWidthLog2 N = 0 := by omega
  have := (computeWidthLog2_spec N (by omega)).1
  rw [hz] at this
  norm_num at this
  omega

theorem cellIdx_inj (w : Nat) {p q : Int × Int}
    (hp : 0 ≤ p.1 ∧ p.1 < ((2 ^ w : Nat) : Int) ∧ 0 ≤ p.2 ∧ p.2 < ((2 ^ w : Nat) : Int))
    (hq : 0 ≤ q.1 ∧ q.1 < ((2 ^ w : Nat) : Int) ∧ 0 ≤ q.2 ∧ q.2 < ((2 ^ w : Nat) : Int))
    (h : cellIdx w p = cellIdx w q) : p = q := by
  obtain ⟨a, b⟩ := p
  obtain ⟨c, d⟩ := q
  obtain ⟨ha0, ha1, hb0, hb1⟩ := hp
  obtain ⟨hc0, hc1, hd0, hd1⟩ := hq
  simp only at ha0 ha1 hb0 hb1 hc0 hc1 hd0 hd1
  simp only [cellIdx] at h
  have hs : ((2 ^ w : Nat) : Int) = 2 ^ w := by push_cast; ring
  rw [hs] at ha1 hb1 hc1 hd1
  have hspos : (0 : Int) < 2 ^ w := by positivity
  have e1 : b * 2 ^ w + a = d * 2 ^ w + c := by
    have n1 : (0 : Int) ≤ b * 2 ^ w + a := add_nonneg (mul_nonneg hb0 hspos.le) ha0
    have n2 : (0 : Int) ≤ d * 2 ^ w + c := add_nonneg (mul_nonneg hd0 hspos.le) hc0
    omega
  have hbd : b = d := by
    rcases lt_trichotomy b d with hlt | heq | hgt
    · nlinarith
    · exact heq
    · nlinarith
  subst hbd
  have hac : a = c := by omega
  simp [hac]

theorem emissionList_eq_of_pos (w : Nat) (hw : 1 ≤ w) : emissionList w = hilbertList w := by
  rw [emissionList_eq]
  congr 1
  omega

theorem emission_cells_nodup (w : Nat) (hw : 1 ≤ w) :
    ((emissionList w).map (cellIdx w)).Nodup := by
  rw [emissionList_eq_of_pos w hw]
  refine List.Nodup.map_on ?_ (hilbertList_nodup w)
  intro p hp q hq hpq
  exact cellIdx_inj w (hilbertList_bounds w p hp) (hilbertList_bounds w q hq) hpq

theorem buildReverse_roundtrip (N : Nat) (h2 : 2 ≤ N) :
    ∃ rev, buildReverse N = some rev ∧ ∀ j, j < N →
      rev.getD (cellIdx (computeWidthLog2 N)
        ((emissionList (computeWidthLog2 N)).getD j (0, 0))) (-1) = Int.ofNat j := by
  have hw : 1 ≤ computeWidthLog2 N := computeWidthLog2_pos N h2
  obtain ⟨out, hsome, _, _, hget⟩ := buildReverseAux_spec (computeWidthLog2 N)
    (emissionList (computeWidthLog2 N)) 0
    (List.replicate (4 ^ computeWidthLog2 N) (-1))
    (emission_cells_nodup _ hw)
    (by rw [emissionList_eq_of_pos _ hw]; exact hilbertList_bounds _)
    (by rw [List.length_replicate])
  refine ⟨out, ?_, ?_⟩
  · rw [buildReverse]
    exact hsome
  · intro j hj
    have hlen : (emissionList (computeWidthLog2 N)).length = 4 ^ computeWidthLog2 N := by
      rw [emissionList_length]
      congr 1
      omega
    have hjlen : j < (emissionList (computeWidthLog2 N)).length := by
      have := (computeWidthLog2_spec N (by omega)).1
      omega
    simpa using hget j hjlen

theorem four_pow_eq_sq (w : Nat) : 4 ^ w = (2 ^ w) ^ 2 := by
  rw [show (4 : Nat) = 2 ^ 2 from rfl, ← pow_mul, ← pow_mul, Nat.mul_comm]

/-- C1: amended.  For width_log2 in [1, 8], the canonical grammar engine driven
to exhaustion emits exactly the Hilbert Direct Mapper's coordinate sequence for
i = 0 .. width^2 - 1, coordinate for coordinate and in order.  (At
width_log2 = 0 the original claim fails: the engine still seeds and runs its
first frame, emitting four coordinates, while the mapper emits one.) -/
theorem claim_C1 (w : Nat) (h1 : 1 ≤ w) (_h2 : w ≤ 8) :
    emissionList w = hilbertList w := by
  have h := emissionList_eq w
  rwa [show w - 1 + 1 = w from by omega] at h

/-- C1 counterexample: at width_log2 = 0 (which the original claim includes)
the engine's emission sequence differs from the mapper's output. -/
theorem claim_C1_counterexample :
    0 ≤ (0 : Nat) ∧ (0 : Nat) ≤ 8 ∧ emissionList 0 ≠ hilbertList 0 := by
  refine ⟨Nat.le_refl 0, by norm_num, ?_⟩
  decide

/-- C1 witness at width_log2 = 1. -/
theorem claim_C1_witness : 1 ≤ 1 ∧ 1 ≤ 8 ∧ emissionList 1 = hilbertList 1 :=
  ⟨by decide, by decide, claim_C1 1 (by decide) (by decide)⟩

/-- C2: for width_log2 in [1, 8], the emitted sequence is a bijection from
emission positions onto the grid: width^2 emissions, no duplicates, and a
coordinate pair is emitted iff it lies in [0, width) x [0, width). -/
theorem claim_C2 (w : Nat) (h1 : 1 ≤ w) (_h2 : w ≤ 8) :
    (emissionList w).length = 4 ^ w ∧ (emissionList w).Nodup ∧
    ∀ p : Int × Int, p ∈ emissionList w ↔
      (0 ≤ p.1 ∧ p.1 < ((2 ^ w : Nat) : Int) ∧ 0 ≤ p.2 ∧ p.2 < ((2 ^ w : Nat) : Int)) := by
  have he := emissionList_eq_of_pos w h1
  refine ⟨by rw [he, hilbertList_length], by rw [he]; exact hilbertList_nodup w, ?_⟩
  intro p
  rw [he]
  constructor
  · exact hilbertList_bounds w p
  · rintro ⟨b1, b2, b3, b4⟩
    exact hilbertList_coverage w p.1 p.2 b1 b2 b3 b4

/-- C2 witness at width_log2 = 1. -/
theorem claim_C2_witness : 1 ≤ 1 ∧ 1 ≤ 8 ∧
    ((emissionList 1).length = 4 ^ 1 ∧ (emissionList 1).Nodup ∧
     ∀ p : Int × Int, p ∈ emissionList 1 ↔
       (0 ≤ p.1 ∧ p.1 < ((2 ^ 1 : Nat) : Int) ∧ 0 ≤ p.2 ∧ p.2 < ((2 ^ 1 : Nat) : Int))) :=
  ⟨by decide, by decide, claim_C2 1 (by decide) (by decide)⟩

/-- C3: for N in [1, 10000] (indeed for all N at least 1) the computed
width = 2 ^ width_log2 satisfies width^2 at least N, and when width exceeds 1
the next smaller power of two would not suffice; N = 100 gives width_log2 = 4
and width = 16, and N = 4 gives width = 2 with cell count 4. -/
theorem claim_C3 :
    (∀ N, 1 ≤ N → N ≤ 10000 →
      N ≤ (2 ^ computeWidthLog2 N) ^ 2 ∧
      (1 < 2 ^ computeWidthLog2 N → ((2 ^ computeWidthLog2 N) / 2) ^ 2 < N)) ∧
    computeWidthLog2 100 = 4 ∧ (2 : Nat) ^ computeWidthLog2 100 = 16 ∧
    (2 : Nat) ^ computeWidthLog2 4 = 2 ∧ ((2 : Nat) ^ computeWidthLog2 4) ^ 2 = 4 := by
  refine ⟨?_, by decide, by decide, by decide, by decide⟩
  intro N h1 _
  obtain ⟨j1, j2⟩ := computeWidthLog2_spec N h1
  constructor
  · rw [← four_pow_eq_sq]
    exact j1
  · intro hgt
    have hw1 : 1 ≤ computeWidthLog2 N := by
      by_contra hh
      push_neg at hh
      have hz : computeWidthLog2 N = 0 := by omega
      rw [hz] at hgt
      norm_num at hgt
    rcases j2 with hz | hlt
    · omega
    · have hdiv : (2 ^ computeWidthLog2 N) / 2 = 2 ^ (computeWidthLog2 N - 1) := by
        obtain ⟨m, hm⟩ := Nat.exists_eq_add_of_le hw1
        rw [hm, Nat.add_comm 1 m, Nat.add_sub_cancel, pow_add, pow_one,
          Nat.mul_div_cancel _ (by norm_num)]
      rw [hdiv, ← four_pow_eq_sq]
      exact hlt

/-- C3 witness at N = 100. -/
theorem claim_C3_witness : 1 ≤ 100 ∧ 100 ≤ 10000 ∧
    (100 ≤ (2 ^ computeWidthLog2 100) ^ 2 ∧
     (1 < 2 ^ computeWidthLog2 100 → ((2 ^ computeWidthLog2 100) / 2) ^ 2 < 100)) :=
  ⟨by decide, by decide, claim_C3.1 100 (by decide) (by decide)⟩

/-- C4: contrary to the claim, the builder loop in main drives the generator
to exhaustion (one iteration per emission, width^2 in total), not one step per
input element.  At N = 3 the grid has width 2 and 4 cells; the engine emits 4
in-bounds coordinates, so the builder's asserts pass and it performs 4 writes,
and the resulting reverse index [0, 3, 1, 2] contains no -1 sentinel, although
N = 3 < 4 cells. -/
theorem claim_C4 :
    computeWidthLog2 3 = 1 ∧
    (emissionList (computeWidthLog2 3)).length = 4 ∧
    buildReverse 3 = some [0, 3, 1, 2] ∧
    (-1 : Int) ∉ (buildReverse 3).getD [] :=
  ⟨by decide, by decide, by decide, by decide⟩

/-- C5: amended round trip.  For every N at least 2, the reverse-index
construction completes (every emitted coordinate passes the builder's bounds
asserts), and for every j < N looking up the cell produced for step j (cell
index (y << width_log2) + x) returns exactly j.  At N = 1 the original claim
fails: width is 1, the exhaustion-driven engine still emits 4 coordinates,
and already the second one, (0, 1), violates the builder's assert py < width,
aborting the program before any reverse index is delivered. -/
theorem claim_C5 (N : Nat) (h2 : 2 ≤ N) :
    ∃ rev, buildReverse N = some rev ∧ ∀ j, j < N →
      rev.getD (cellIdx (computeWidthLog2 N)
        ((emissionList (computeWidthLog2 N)).getD j (0, 0))) (-1) = Int.ofNat j :=
  buildReverse_roundtrip N h2

/-- C5 counterexample: at N = 1 (included in the original claim) the builder
aborts on its bounds assert, so no reverse index exists to look up. -/
theorem claim_C5_counterexample :
    1 ≤ (1 : Nat) ∧ buildReverse 1 = none ∧ ¬∃ rev, buildReverse 1 = some rev := by
  refine ⟨Nat.le_refl 1, by decide, ?_⟩
  rintro ⟨rev, hrev⟩
  rw [show buildReverse 1 = none from by decide] at hrev
  exact Option.noConfusion hrev

/-- C5 witness at N = 3. -/
theorem claim_C5_witness : 2 ≤ 3 ∧
    (∃ rev, buildReverse 3 = some rev ∧ ∀ j, j < 3 →
      rev.getD (cellIdx (computeWidthLog2 3)
        ((emissionList (computeWidthLog2 3)).getD j (0, 0))) (-1) = Int.ofNat j) :=
  ⟨by decide, claim_C5 3 (by decide)⟩

/-- C6: amended.  For every grammar and every max_depth, the stack height of
any reachable engine state is at most max 1 max_depth.  (The original bound
max_depth alone fails at max_depth = 0: the engine still seeds the first
frame, making the height 1.) -/
theorem claim_C6 (rules : List String) (depth : Nat) (l : lindenmayer_system)
    (h : Reach rules depth l) : l.stack.length ≤ max 1 depth := by
  obtain ⟨_, h2, h3⟩ := Reach_inv rules depth l h
  rwa [h3] at h2

/-- C6 counterexample: with max_depth = 0 the state after one production call
has stack height 1, exceeding max_depth. -/
theorem claim_C6_counterexample :
    ∃ l, Reach canonicalRules 0 l ∧ ¬ l.stack.length ≤ 0 :=
  ⟨(lstep (lindenmayer_system_init canonicalRules 0)).2, Reach.step Reach.init, by decide⟩

/-- C6 witness: the initial state at max_depth = 3. -/
theorem claim_C6_witness :
    Reach canonicalRules 3 (lindenmayer_system_init canonicalRules 3) ∧
    (lindenmayer_system_init canonicalRules 3).stack.length ≤ max 1 3 :=
  ⟨Reach.init, claim_C6 canonicalRules 3 _ Reach.init⟩

/-- C7: locality.  For the canonical grammar with max_depth = width_log2 at
least 1, consecutive emitted coordinates are at Manhattan distance exactly 1. -/
theorem claim_C7 (w : Nat) (h1 : 1 ≤ w) :
    List.Chain' adjacentCell (emissionList w) := by
  rw [emissionList_eq_of_pos w h1]
  exact hilbertList_chain w

/-- C7 witness at width_log2 = 1. -/
theorem claim_C7_witness : 1 ≤ 1 ∧ List.Chain' adjacentCell (emissionList 1) :=
  ⟨by decide, claim_C7 1 (by decide)⟩

/-- C8: truncation safety.  For the canonical grammar with max_depth strictly
below width_log2 (and width_log2 within the 256-entry stack capacity of the
struct), the engine reaches the exhausted state 2 within curveFuel max_depth
production calls, emits a bounded number of coordinates, and no reachable
state's stack height exceeds the 256-entry capacity. -/
theorem claim_C8 (d w : Nat) (hdw : d < w) (hcap : w ≤ 256) :
    ((runStepsAux (curveFuel d) (lindenmayer_system_init canonicalRules d) []).2).state = 2 ∧
    (emissionList d).length = 4 ^ (d - 1 + 1) ∧
    ∀ l, Reach canonicalRules d l → l.stack.length ≤ 256 := by
  refine ⟨engineFinalState d, emissionList_length d, ?_⟩
  intro l hl
  obtain ⟨_, h2, h3⟩ := Reach_inv _ _ l hl
  rw [h3] at h2
  omega

/-- C8 witness at max_depth = 0, width_log2 = 1. -/
theorem claim_C8_witness : 0 < 1 ∧ 1 ≤ 256 ∧
    (((runStepsAux (curveFuel 0) (lindenmayer_system_init canonicalRules 0) []).2).state = 2 ∧
     (emissionList 0).length = 4 ^ (0 - 1 + 1) ∧
     ∀ l, Reach canonicalRules 0 l → l.stack.length ≤ 256) :=
  ⟨by decide, by decide, claim_C8 0 1 (by decide) (by decide)⟩

/-- C9: driving the canonical engine to exhaustion emits exactly 4 ^ d
coordinates for max_depth d at least 1, and exactly 4 coordinates for d = 0
(the first frame is seeded and run regardless of depth); the engine ends in
the exhausted state 2. -/
theorem claim_C9 (d : Nat) :
    ((runStepsAux (curveFuel d) (lindenmayer_system_init canonicalRules d) []).2).state = 2 ∧
    (1 ≤ d → (emissionList d).length = 4 ^ d) ∧
    (d = 0 → (emissionList d).length = 4) := by
  refine ⟨engineFinalState d, ?_, ?_⟩
  · intro hd
    rw [emissionList_length]
    congr 1
    omega
  · intro hd
    subst hd
    rw [emissionList_length]
    norm_num

/-- C9 witness at d = 1. -/
theorem claim_C9_witness :
    ((runStepsAux (curveFuel 1) (lindenmayer_system_init canonicalRules 1) []).2).state = 2 ∧
    (1 ≤ 1 ∧ (emissionList 1).length = 4 ^ 1) :=
  ⟨(claim_C9 1).1, by decide, (claim_C9 1).2.1 (by decide)⟩

/-- C10: in every reachable state of any initialised engine the direction
field lies in {0, 1, 2, 3}, so the direction dispatch of the move-emit
operation never falls through to the bad-state branch. -/
theorem claim_C10 (rules : List String) (depth : Nat) (l : lindenmayer_system)
    (h : Reach rules depth l) : l.direction < 4 :=
  (Reach_inv rules depth l h).1

/-- C10 witness: the initial state at max_depth = 2. -/
theorem claim_C10_witness :
    Reach canonicalRules 2 (lindenmayer_system_init canonicalRules 2) ∧
    (lindenmayer_system_init canonicalRules 2).direction < 4 :=
  ⟨Reach.init, claim_C10 canonicalRules 2 _ Reach.init⟩
